import Mathlib

/-!
# Verification of the go-audio clip engine

Shallow embedding of the multi-channel audio clip operations of
`clip.go` (package `audio`), together with proofs and refutations of the
specification's claims about them.

Conventions of the embedding:
* Go `int16` sample values are `Int`s; the stored values are kept in the
  16-bit range by the operations themselves, and Go's wrapping `int16`
  addition is `wrap16`.
* Go `int` is `Int` (no arithmetic in `clip.go` overflows a 64-bit int);
  the explicit Go conversions `int16(...)` and `int32(...)` in
  `NewWaveFromClip` are `wrap16` and `wrap32`.
* A Go slice of samples is a `List Int`; an operation that can panic
  (index out of range, slice bounds, division by zero, negative `make`)
  returns `Option`, with `none` for the runtime panic.
* Functions that return a Go `error` return `Except String` carrying the
  exact message string built by the source.
-/

namespace GoAudio

/-- Go `int16` wraparound: the value of an `int16` holding `x`. -/
def wrap16 (x : Int) : Int := (x + 32768) % 65536 - 32768

/-- Go `int32` wraparound: the value of an `int32` holding `x`. -/
def wrap32 (x : Int) : Int := (x + 2147483648) % 4294967296 - 2147483648

/-- `x` is in the `int16` range. -/
def isInt16 (x : Int) : Prop := -32768 ≤ x ∧ x ≤ 32767

instance (x : Int) : Decidable (isInt16 x) := by unfold isInt16; infer_instance

/-- The `Clip` struct of `clip.go`: channels of samples (non-interlaced),
a name and a sample rate. -/
structure Clip where
  Samples : List (List Int)
  Name : String
  SampleRate : Int
deriving DecidableEq, Repr

/-- `NewClip`: a clip with `numChannels` empty channels; `Name` and
`SampleRate` keep their Go zero values. -/
def NewClip (numChannels : Nat) : Clip :=
  { Samples := List.replicate numChannels [], Name := "", SampleRate := 0 }

/-- `LenPerChannel`: `len(c.Samples[0])`; indexing channel `0` of a clip
with no channels panics, hence `none` there. -/
def LenPerChannel (c : Clip) : Option Nat :=
  c.Samples.head?.map List.length

/-- Option-valued `List.map`: `some` of the mapped list when `f` succeeds
everywhere, `none` (propagating the first failure) otherwise. -/
def omap (f : α → Option β) : List α → Option (List β)
  | [] => some []
  | x :: xs =>
    match f x with
    | none => none
    | some y =>
      match omap f xs with
      | none => none
      | some ys => some (y :: ys)

/-- Write `v` at index `j` of `l`, or `none` (panic) when `j` is out of
range. -/
def setAt (l : List Int) (j : Nat) (v : Int) : Option (List Int) :=
  if j < l.length then some (l.set j v) else none

/-- The error message built by `Append` and `Mix` on a channel-count
mismatch (the spec's `ChannelMismatch` kind). -/
def chanMismatchMsg : String := "Clips have varying number of channels."

/-- `Append`: with equal channel counts, extends every target channel
with the corresponding source channel; otherwise the channel-mismatch
error. -/
def Append (target source : Clip) : Except String Clip :=
  if target.Samples.length ≠ source.Samples.length then
    Except.error chanMismatchMsg
  else
    Except.ok { target with
      Samples := List.zipWith (fun a b => a ++ b) target.Samples source.Samples }

/-- One sample of `mix`: `sample` from `t`, `sample2` from `s`;
`mixed := sample + sample2` in wrapping `int16` arithmetic, then the
source's sign-comparison saturation switch. -/
def mixSample (sample sample2 : Int) : Int :=
  let mixed := wrap16 (sample + sample2)
  if sample2 > 0 ∧ mixed < sample then 32767
  else if sample2 < 0 ∧ mixed > sample then -32768
  else mixed

/-- The write phase of `mix`: for every index `i < t.length` store
`mixSample t[i] s[i]` into `s`; positions of `s` beyond `t` are kept.
(The source's loop reads and writes index `i` only, so the iterations are
independent and a `zipWith` captures them.) -/
def mixWrite (s t : List Int) : List Int :=
  List.zipWith (fun b a => mixSample b a) t s ++ s.drop t.length

/-- The contents of the caller's channel slice after `mix s t`, as seen
through the caller's unchanged slice header.

`mix` receives the Go slice header by value.  When `t` is longer it
grows a local copy of the header with `append`; per the Go
specification `append` reuses the backing array when the capacity
`cap` of `s` suffices (`t.length ≤ cap`) and allocates a fresh array
otherwise.  The caller's header keeps its old length in every case, so:
* `t.length ≤ s.length`: the writes happen in place and are visible;
* `s.length < t.length ≤ cap`: the extension shares the backing array,
  so the first `s.length` mixed values are visible;
* `cap < t.length`: the extension reallocates and every write lands in
  the fresh array, invisible to the caller. -/
def mix (cap : Nat) (s t : List Int) : List Int :=
  if t.length ≤ s.length then mixWrite s t
  else if t.length ≤ cap then
    (mixWrite (s ++ List.replicate (t.length - s.length) 0) t).take s.length
  else s

/-- `Mix`: with equal channel counts, mixes each of `t`'s channels into
the corresponding channel of `s`; `caps i` is the Go capacity of `s`'s
channel `i` (see `mix`).  Otherwise the channel-mismatch error. -/
def Mix (s t : Clip) (caps : Nat → Nat) : Except String Clip :=
  if s.Samples.length ≠ t.Samples.length then
    Except.error chanMismatchMsg
  else
    Except.ok { s with
      Samples := (List.range s.Samples.length).map fun i =>
        mix (caps i) (s.Samples.getD i []) (t.Samples.getD i []) }

/-- The Go slice expression `ch[start:end]` (with `cap = len`): the
window `[start, end)`, or `none` (panic) when `start ≤ end ≤ len` fails
or `start` is negative. -/
def goSlice (ch : List Int) (start stop : Int) : Option (List Int) :=
  if 0 ≤ start ∧ start ≤ stop ∧ stop ≤ (ch.length : Int) then
    some ((ch.take stop.toNat).drop start.toNat)
  else none

/-- `Slice`: clamps `endIndex` to channel 0's length, then windows every
channel; panics (`none`) on a clip with no channels or when the window
is out of a channel's bounds.  The result keeps `NewClip`'s zero `Name`
and `SampleRate`, exactly as the source does. -/
def Slice (s : Clip) (startIndex endIndex : Int) : Option Clip :=
  match s.Samples.head? with
  | none => none
  | some ch0 =>
    let stop := if endIndex > (ch0.length : Int) then (ch0.length : Int) else endIndex
    match omap (fun ch => goSlice ch startIndex stop) s.Samples with
    | none => none
    | some chans => some { Samples := chans, Name := "", SampleRate := 0 }

/-- `Split`: `stepLen := len(c.Samples[0]) / numDivisions` then
`numDivisions` consecutive `Slice`s.  `none` models the panics: channel
0 of a channel-less clip, division by zero when the count is `0`, and
`make` with a negative length when it is negative.  The source's `error`
return value is always `nil` (`Slice` never fails with an error), so the
result type has no error component. -/
def Split (c : Clip) (numDivisions : Int) : Option (List Clip) :=
  match c.Samples.head? with
  | none => none
  | some ch0 =>
    if numDivisions = 0 then none
    else if numDivisions < 0 then none
    else
      let n := numDivisions.toNat
      let stepLen : Nat := ch0.length / n
      omap (fun i => Slice c ((stepLen * i : Nat) : Int) (((stepLen * i + stepLen : Nat)) : Int))
        (List.range n)

/-- The inner loop of `Stretch` on one channel, iterating `i` downward:
read `ch[i]`, write it to `ch[i*2]`, zero `ch[i]`; `none` on the first
out-of-range access. -/
def stretchLoop : List Int → Nat → Option (List Int)
  | ch, i =>
    match ch.get? i with
    | none => none
    | some v =>
      match setAt ch (i * 2) v with
      | none => none
      | some ch1 =>
        match setAt ch1 i 0 with
        | none => none
        | some ch2 =>
          match i with
          | 0 => some ch2
          | j + 1 => stretchLoop ch2 j

/-- The channel loop of `Stretch`: extend channel `chanNum` by `L`
zeros, then run the inner loop starting at the *current* length of
channel 0 (already extended once `chanNum ≥ 0` has been processed). -/
def stretchChannels (L : Nat) (chans : List (List Int)) (chanNum : Nat) :
    Option (List (List Int)) :=
  if _h : chanNum < chans.length then
    let ext := chans.getD chanNum [] ++ List.replicate L 0
    let chans1 := chans.set chanNum ext
    match stretchLoop ext (chans1.headD []).length with
    | none => none
    | some ch2 => stretchChannels L (chans1.set chanNum ch2) (chanNum + 1)
  else some chans
termination_by chans.length - chanNum
decreasing_by simp only [List.length_set]; omega

/-- `Stretch`: records `sampleLen := len(c.Samples[0])` (panic on a
channel-less clip) and runs the channel loop. -/
def Stretch (c : Clip) : Option Clip :=
  match c.Samples.head? with
  | none => none
  | some ch0 =>
    match stretchChannels ch0.length c.Samples 0 with
    | none => none
    | some chans => some { c with Samples := chans }

/-- Modelled from the spec: the external PCM container (`wave.File` of
the repository's `encoding/wave` package, which is not part of the
sources verified here).  Per the spec's codec boundary, the container
exposes an identifier (`FileName`), a channel count and a 32-bit sample
rate in its header, and a flat round-robin interleaved sample sequence;
it is assumed to transmit these faithfully.  Header fields hold the
already-converted `int16`/`int32` values that `clip.go` stores with its
explicit casts.  The finalize step (`UpdateHeader`) only recomputes
length-derived header fields, which this model does not carry. -/
structure WaveFile where
  FileName : String
  NumChannels : Int
  SampleRate : Int
  Samples : List Int
deriving DecidableEq, Repr

/-- The interleaving loop of `NewWaveFromClip`: for every temporal
offset below `L` append, in channel order, each channel's sample at
that offset; `none` (panic) when some channel is shorter. -/
def interleave (chans : List (List Int)) (L : Nat) : Option (List Int) :=
  match omap (fun off => omap (fun ch => ch.get? off) chans) (List.range L) with
  | none => none
  | some rows => some rows.flatten

/-- `NewWaveFromClip`: appends `".wav"` to the clip name unless already
present, stores the channel count and the sample rate through Go's
`int16`/`int32` conversions, and interleaves the channels (panic, hence
`none`, on a clip with no channels). -/
def NewWaveFromClip (c : Clip) : Option WaveFile :=
  let fileName :=
    if (c.Name.splitOn ".wav").length > 1 then c.Name else c.Name ++ ".wav"
  match c.Samples.head? with
  | none => none
  | some ch0 =>
    match interleave c.Samples ch0.length with
    | none => none
    | some flat =>
      some { FileName := fileName, NumChannels := wrap16 c.Samples.length,
             SampleRate := wrap32 c.SampleRate, Samples := flat }

/-- The deinterlacing loop of `NewClipFromWave`: sample at flat index
`i` is appended to channel `i % n`. -/
def deinter (n : Nat) : List Int → List (List Int) → Nat → List (List Int)
  | [], acc, _ => acc
  | x :: rest, acc, i =>
    deinter n rest (acc.set (i % n) (acc.getD (i % n) [] ++ [x])) (i + 1)

/-- `NewClipFromWave` after a successful open: the source assigns
`c.Name = w.FileName` and then *reassigns* `c = NewClip(...)`, so the
returned clip's `Name` is the zero value `""`.  `none` models the
panics: `make` with a negative channel count, and `i % 0` when the
count is zero but samples are present. -/
def NewClipFromWave (w : WaveFile) : Option Clip :=
  if w.NumChannels < 0 then none
  else
    let n := w.NumChannels.toNat
    if n = 0 ∧ w.Samples ≠ [] then none
    else
      some { Samples := deinter n w.Samples (List.replicate n []) 0,
             Name := "", SampleRate := w.SampleRate }

/-! ## Helper lemmas -/

theorem omap_eq_map {α β : Type} {f : α → Option β} {g : α → β} :
    ∀ l : List α, (∀ x ∈ l, f x = some (g x)) → omap f l = some (l.map g) := by
  intro l
  induction l with
  | nil => intro _; rfl
  | cons x xs ih =>
    intro h
    have hx : f x = some (g x) := h x (List.mem_cons_self x xs)
    have hxs := ih fun y hy => h y (List.mem_cons_of_mem _ hy)
    simp [omap, hx, hxs]

theorem wrap16_eq_self {x : Int} (h1 : -32768 ≤ x) (h2 : x ≤ 32767) : wrap16 x = x := by
  unfold wrap16; omega

theorem wrap32_eq_self {x : Int} (h1 : -2147483648 ≤ x) (h2 : x ≤ 2147483647) :
    wrap32 x = x := by
  unfold wrap32; omega

theorem mixWrite_cons (a b : Int) (s t : List Int) :
    mixWrite (a :: s) (b :: t) = mixSample b a :: mixWrite s t := by
  simp [mixWrite]

theorem mixWrite_length (s t : List Int) : (mixWrite s t).length = s.length := by
  simp [mixWrite]; omega

theorem mixWrite_getD :
    ∀ (s t : List Int) (k : Nat), k < t.length → t.length ≤ s.length →
      (mixWrite s t).getD k 0 = mixSample (t.getD k 0) (s.getD k 0)
  | _, [], k, hk, _ => by simp at hk
  | [], b :: t, k, _, hl => by simp at hl
  | a :: s, b :: t, 0, _, _ => by simp [mixWrite_cons]
  | a :: s, b :: t, k + 1, hk, hl => by
    simp only [mixWrite_cons, List.getD_cons_succ]
    exact mixWrite_getD s t k (by simpa using hk) (by simpa using hl)

theorem mix_length (cap : Nat) (s t : List Int) : (mix cap s t).length = s.length := by
  unfold mix
  split_ifs with h1 h2
  · exact mixWrite_length s t
  · simp [mixWrite_length, List.length_take]
  · rfl

theorem getD_take (l : List Int) (m k : Nat) (hk : k < m) (hl : k < l.length) :
    (l.take m).getD k 0 = l.getD k 0 := by
  have hlt : k < (l.take m).length := by simp [List.length_take]; omega
  rw [List.getD_eq_getElem _ _ hlt, List.getD_eq_getElem _ _ hl, List.getElem_take]

theorem mix_getD (cap : Nat) (s t : List Int) (k : Nat)
    (hks : k < s.length) (hkt : k < t.length) :
    (mix cap s t).getD k 0 =
      if t.length ≤ s.length ∨ t.length ≤ cap then
        mixSample (t.getD k 0) (s.getD k 0)
      else s.getD k 0 := by
  unfold mix
  by_cases h1 : t.length ≤ s.length
  · rw [if_pos h1, if_pos (Or.inl h1)]
    exact mixWrite_getD s t k hkt h1
  · rw [if_neg h1]
    by_cases h2 : t.length ≤ cap
    · rw [if_pos h2, if_pos (Or.inr h2)]
      have hext : (s ++ List.replicate (t.length - s.length) 0).length = t.length := by
        simp; omega
      have hwl : (mixWrite (s ++ List.replicate (t.length - s.length) 0) t).length
          = t.length := by rw [mixWrite_length, hext]
      rw [getD_take _ _ _ hks (by omega)]
      rw [mixWrite_getD _ _ k hkt (by omega)]
      rw [List.getD_append _ _ _ _ hks]
    · rw [if_neg h2, if_neg (by push_neg; exact ⟨by omega, by omega⟩)]

/-- The per-sample combine rule in the words of the spec (§4.5), for
comparison with the source's `mixSample`: `raw = a + b` computed with
wraparound, clamped to the maximum when `b > 0` and `raw < a`, to the
minimum when `b < 0` and `raw > a`, and `raw` unchanged otherwise
(`a` the first operand's sample, `b` the second operand's). -/
def specMixSample (a b : Int) : Int :=
  let raw := wrap16 (a + b)
  if b > 0 ∧ raw < a then 32767
  else if b < 0 ∧ raw > a then -32768
  else raw

/-- The source's sign-comparison switch (which tests `s`'s sample and
compares against `t`'s) agrees with the spec's formulation (which tests
`t`'s sample and compares against `s`'s) on 16-bit inputs: both detect
exactly the wraparound cases. -/
theorem mixSample_eq_spec (a b : Int) (ha : isInt16 a) (hb : isInt16 b) :
    mixSample b a = specMixSample a b := by
  obtain ⟨ha1, ha2⟩ := ha
  obtain ⟨hb1, hb2⟩ := hb
  have hcomm : b + a = a + b := by ring
  simp only [mixSample, specMixSample, wrap16, hcomm]
  split_ifs <;> omega

theorem getD_zipWith_append :
    ∀ (l l' : List (List Int)) (i : Nat), i < l.length → i < l'.length →
      (List.zipWith (fun a b => a ++ b) l l').getD i [] = l.getD i [] ++ l'.getD i []
  | [], _, i, hi, _ => by simp at hi
  | _ :: _, [], i, _, hi => by simp at hi
  | a :: l, b :: l', 0, _, _ => by simp
  | a :: l, b :: l', i + 1, hi, hi' => by
    simp only [List.zipWith_cons_cons, List.getD_cons_succ]
    exact getD_zipWith_append l l' i (by simpa using hi) (by simpa using hi')

theorem stretchLoop_top (ch : List Int) : stretchLoop ch ch.length = none := by
  rw [stretchLoop]
  have h : ch.get? ch.length = none := List.get?_eq_none.mpr (le_refl _)
  simp [h]

theorem stretch_always_aborts_aux (c : Clip) : Stretch c = none := by
  unfold Stretch
  rcases hc : c.Samples with _ | ⟨ch0, rest⟩
  · rfl
  · simp only [List.head?_cons]
    rw [stretchChannels]
    have h0 : 0 < (ch0 :: rest).length := by simp
    rw [dif_pos h0]
    have hset : (ch0 :: rest).set 0 (ch0 ++ List.replicate ch0.length 0)
        = (ch0 ++ List.replicate ch0.length 0) :: rest := rfl
    simp only [List.getD_cons_zero, hset, List.headD_cons]
    rw [stretchLoop_top]

/-! ## Interleave / deinterleave round trip -/

/-- Appending the elements of one temporal row to consecutive channels,
starting at channel `j`: the shape `deinter` takes while consuming one
row of the flat sequence. -/
def rowApply : List (List Int) → List Int → Nat → List (List Int)
  | acc, [], _ => acc
  | acc, x :: xs, j => rowApply (acc.set j (acc.getD j [] ++ [x])) xs (j + 1)

/-- The flat interleaved sequence of channels `CS` over offsets
`0 .. L-1`, written with total functions. -/
def flatRows (CS : List (List Int)) (L : Nat) : List Int :=
  ((List.range L).map fun off => CS.map fun ch => ch.getD off 0).flatten

theorem interleave_eq_flatRows (CS : List (List Int)) (L : Nat)
    (h : ∀ ch ∈ CS, ch.length = L) :
    interleave CS L = some (flatRows CS L) := by
  unfold interleave
  have hrow : ∀ off ∈ List.range L,
      omap (fun ch => ch.get? off) CS = some (CS.map fun ch => ch.getD off 0) := by
    intro off hoff
    have hoffL : off < L := List.mem_range.mp hoff
    apply omap_eq_map
    intro ch hch
    have hlt : off < ch.length := by rw [h ch hch]; exact hoffL
    rw [List.get?_eq_getElem?, List.getElem?_eq_getElem hlt, List.getD_eq_getElem _ _ hlt]
  rw [omap_eq_map _ hrow]
  rfl

theorem rowApply_eq :
    ∀ (row : List Int) (pre post : List (List Int)), row.length = post.length →
      rowApply (pre ++ post) row pre.length
        = pre ++ List.zipWith (fun ch x => ch ++ [x]) post row := by
  intro row
  induction row with
  | nil =>
    intro pre post hlen
    have h0 : post.length = 0 := by simpa using hlen.symm
    have : post = [] := List.length_eq_zero.mp h0
    subst this
    simp [rowApply]
  | cons x xs ih =>
    intro pre post hlen
    rcases post with _ | ⟨p, ps⟩
    · simp at hlen
    · have hget : (pre ++ p :: ps).getD pre.length [] = p := by
        rw [List.getD_append_right _ _ _ _ (le_refl _)]
        simp
      have hset : (pre ++ p :: ps).set pre.length (p ++ [x]) = pre ++ (p ++ [x]) :: ps := by
        rw [List.set_append_right _ _ (le_refl _)]
        simp
      show rowApply ((pre ++ p :: ps).set pre.length
          ((pre ++ p :: ps).getD pre.length [] ++ [x])) xs (pre.length + 1)
        = pre ++ List.zipWith (fun ch x => ch ++ [x]) (p :: ps) (x :: xs)
      rw [hget, hset]
      have hre : pre ++ (p ++ [x]) :: ps = (pre ++ [p ++ [x]]) ++ ps := by simp
      have hlen1 : pre.length + 1 = (pre ++ [p ++ [x]]).length := by simp
      rw [hre, hlen1, ih (pre ++ [p ++ [x]]) ps (by simpa using hlen)]
      simp

theorem deinter_row (n : Nat) :
    ∀ (row rest : List Int) (acc : List (List Int)) (q j : Nat),
      acc.length = n → j + row.length ≤ n →
      deinter n (row ++ rest) acc (q * n + j)
        = deinter n rest (rowApply acc row j) (q * n + j + row.length) := by
  intro row
  induction row with
  | nil => intro rest acc q j _ _; simp [rowApply]
  | cons x xs ih =>
    intro rest acc q j hacc hle
    have hj : j < n := by simp at hle; omega
    have hmod : (q * n + j) % n = j := by
      rw [Nat.add_comm, Nat.mul_comm, Nat.add_mul_mod_self_left, Nat.mod_eq_of_lt hj]
    show deinter n (xs ++ rest)
        (acc.set ((q * n + j) % n) (acc.getD ((q * n + j) % n) [] ++ [x])) (q * n + j + 1)
      = deinter n rest (rowApply acc (x :: xs) j) (q * n + j + (x :: xs).length)
    rw [hmod]
    have hstep := ih rest (acc.set j (acc.getD j [] ++ [x])) q (j + 1)
      (by simp [hacc]) (by simp at hle ⊢; omega)
    have harith : q * n + (j + 1) = q * n + j + 1 := by omega
    rw [harith] at hstep
    rw [hstep]
    show deinter n rest (rowApply acc (x :: xs) j) _ = _
    congr 1
    simp
    omega

theorem zipWith_append_nil_right :
    ∀ (acc CS : List (List Int)), acc.length = CS.length → (∀ ch ∈ CS, ch = []) →
      List.zipWith (fun a b => a ++ b) acc CS = acc
  | [], [], _, _ => rfl
  | [], _ :: _, h, _ => by simp at h
  | _ :: _, [], h, _ => by simp at h
  | a :: acc, c :: CS, h, hnil => by
    have hc : c = [] := hnil c (List.mem_cons_self c CS)
    simp only [List.zipWith_cons_cons, hc, List.append_nil]
    rw [zipWith_append_nil_right acc CS (by simpa using h)
      fun ch hch => hnil ch (List.mem_cons_of_mem _ hch)]

theorem zipWith_snoc_tail :
    ∀ (acc CS : List (List Int)), acc.length = CS.length → (∀ ch ∈ CS, ch ≠ []) →
      List.zipWith (fun a b => a ++ b)
          (List.zipWith (fun ch x => ch ++ [x]) acc (CS.map fun ch => ch.getD 0 0))
          (CS.map List.tail)
        = List.zipWith (fun a b => a ++ b) acc CS
  | [], [], _, _ => rfl
  | [], _ :: _, h, _ => by simp at h
  | _ :: _, [], h, _ => by simp at h
  | a :: acc, c :: CS, h, hne => by
    rcases hc : c with _ | ⟨y, ys⟩
    · exact absurd hc (hne c (List.mem_cons_self c CS))
    · simp only [List.map_cons, List.zipWith_cons_cons, List.getD_cons_zero, List.tail_cons]
      rw [zipWith_snoc_tail acc CS (by simpa using h)
        fun ch hch => hne ch (List.mem_cons_of_mem _ hch)]
      simp

theorem flatRows_succ (CS : List (List Int)) (L : Nat)
    (h : ∀ ch ∈ CS, ch.length = L + 1) :
    flatRows CS (L + 1)
      = (CS.map fun ch => ch.getD 0 0) ++ flatRows (CS.map List.tail) L := by
  unfold flatRows
  rw [List.range_succ_eq_map]
  simp only [List.map_cons, List.flatten_cons, List.map_map]
  congr 1
  congr 1
  apply List.map_congr_left
  intro off _
  simp only [Function.comp]
  apply List.map_congr_left
  intro ch hch
  rcases hc : ch with _ | ⟨y, ys⟩
  · have := h ch hch; rw [hc] at this; simp at this
  · simp [Function.comp]

theorem deinter_flatRows (n : Nat) :
    ∀ (L : Nat) (CS acc : List (List Int)) (q : Nat),
      CS.length = n → acc.length = n → (∀ ch ∈ CS, ch.length = L) →
      deinter n (flatRows CS L) acc (q * n)
        = List.zipWith (fun a b => a ++ b) acc CS := by
  intro L
  induction L with
  | zero =>
    intro CS acc q hCS hacc hlen
    show deinter n [] acc (q * n) = _
    rw [zipWith_append_nil_right acc CS (by omega)
      fun ch hch => List.length_eq_zero.mp (hlen ch hch)]
    rfl
  | succ L ih =>
    intro CS acc q hCS hacc hlen
    rw [flatRows_succ CS L hlen]
    have hrowlen : (CS.map fun ch => ch.getD 0 0).length = n := by simp [hCS]
    have hstep := deinter_row n (CS.map fun ch => ch.getD 0 0) (flatRows (CS.map List.tail) L)
      acc q 0 hacc (by omega)
    simp only [Nat.add_zero] at hstep
    rw [hstep]
    have happ : rowApply acc (CS.map fun ch => ch.getD 0 0) 0
        = List.zipWith (fun ch x => ch ++ [x]) acc (CS.map fun ch => ch.getD 0 0) := by
      have := rowApply_eq (CS.map fun ch => ch.getD 0 0) [] acc (by simp [hCS, hacc])
      simpa using this
    rw [happ, hrowlen]
    have harith : q * n + n = (q + 1) * n := by ring
    rw [harith]
    rw [ih (CS.map List.tail) _ (q + 1) (by simp [hCS])
      (by simp [List.length_zipWith, hacc, hCS])
      (by intro ch hch
          rcases List.mem_map.mp hch with ⟨ch0, hch0, rfl⟩
          have := hlen ch0 hch0
          simp [List.length_tail, this])]
    exact zipWith_snoc_tail acc CS (by omega)
      fun ch hch => by
        have := hlen ch hch
        intro hnil
        rw [hnil] at this
        simp at this

theorem zipWith_append_replicate :
    ∀ CS : List (List Int),
      List.zipWith (fun a b => a ++ b) (List.replicate CS.length []) CS = CS
  | [] => rfl
  | c :: CS => by
    simp only [List.length_cons, List.replicate_succ, List.zipWith_cons_cons, List.nil_append]
    rw [zipWith_append_replicate CS]

/-! ## Slice and Split -/

theorem Slice_uniform (c : Clip) (ch0 : List Int) (hcs : c.Samples.head? = some ch0)
    (hu : ∀ ch ∈ c.Samples, ch.length = ch0.length) (a b : Nat)
    (hab : a ≤ b) (hbL : b ≤ ch0.length) :
    Slice c (a : Int) (b : Int)
      = some { Samples := c.Samples.map fun ch => (ch.take b).drop a,
               Name := "", SampleRate := 0 } := by
  unfold Slice
  rw [hcs]
  have hclamp : ¬ ((b : Int) > (ch0.length : Int)) := by
    push_neg
    exact_mod_cast hbL
  dsimp only
  rw [if_neg hclamp]
  have hch : ∀ ch ∈ c.Samples, goSlice ch (a : Int) (b : Int)
      = some ((ch.take b).drop a) := by
    intro ch hch
    unfold goSlice
    have hlen : ch.length = ch0.length := hu ch hch
    rw [if_pos]
    · simp [Int.toNat_ofNat]
    · refine ⟨by positivity, by exact_mod_cast hab, ?_⟩
      rw [hlen]
      exact_mod_cast hbL
  rw [omap_eq_map _ hch]

theorem window_concat (ch : List Int) (k : Nat) :
    ∀ m : Nat,
      ((List.range m).map fun i => ((ch.take (k * i + k)).drop (k * i))).flatten
        = ch.take (k * m)
  | 0 => by simp
  | m + 1 => by
    rw [List.range_succ, List.map_append, List.flatten_append, window_concat ch k m]
    simp only [List.map_cons, List.map_nil, List.flatten_cons, List.flatten_nil,
      List.append_nil]
    rw [List.drop_take]
    have h1 : k * m + k - k * m = k := by omega
    have h2 : k * (m + 1) = k * m + k := by ring
    rw [h1, h2, List.take_add]

/-! ## Claim theorems -/

/-- C1: the claim says `Stretch` doubles every channel, putting the
original sample `k` at position `2k` and zero at every odd position.
The code instead starts its inner loop at `i = len(c.Samples[0])` taken
*after* channel 0 has already been doubled, so its first write targets
index `2·i`, beyond the doubled channel: `Stretch` aborts with an index
out of range on every clip (including the empty ones). -/
theorem C1_stretch_always_aborts (c : Clip) : Stretch c = none :=
  stretch_always_aborts_aux c

/-- C2: the claim says that after `s.Mix(t)` each channel of `s` is at
least as long as `t`'s.  Concretely: `s` with one empty channel (as
`NewClip(1)` builds, capacity 0) mixed with a one-sample `t` leaves
`s`'s channel empty — the zero-extension happens on `mix`'s local slice
header and is never visible through `s`. -/
theorem C2_mix_growth_invisible :
    Mix { Samples := [[]], Name := "", SampleRate := 0 }
        { Samples := [[0]], Name := "", SampleRate := 0 } (fun _ => 0)
      = Except.ok { Samples := [([] : List Int)], Name := "", SampleRate := 0 } := rfl

/-- C5: decoding a container copies channel count, sample rate and the
round-robin deinterleaved samples as claimed, but the clip's name is
`""`, not the container's identifier: the source assigns
`c.Name = w.FileName` and then discards that clip by reassigning
`c = NewClip(...)`. -/
theorem C5_decode_loses_name :
    NewClipFromWave ⟨"song.wav", 2, 44100, [1, 2, 3, 4]⟩
      = some { Samples := [[1, 3], [2, 4]], Name := "", SampleRate := 44100 }
    ∧ "" ≠ "song.wav" :=
  ⟨rfl, by decide⟩

/-- C8 counterexample: `Split` on a concrete clip with division count
`0` aborts (division by zero, `none`) instead of returning the
`InvalidArgument` diagnostic error the claim promises. -/
theorem C8_split_zero_counterexample :
    Split { Samples := [[1, 2]], Name := "", SampleRate := 0 } 0 = none := rfl

/-- C8 (amended): `Split` with a non-positive division count aborts
instead of returning a diagnostic error.  The code has no guard: with
count `0` the computation `len(c.Samples[0]) / numDivisions` divides by
zero, and with a negative count `make([]*Clip, n)` has a negative
length; both panic. -/
theorem C8_split_nonpositive_aborts (c : Clip) (n : Int) (hn : n ≤ 0) :
    Split c n = none := by
  unfold Split
  rcases c.Samples.head? with _ | ch0
  · rfl
  · dsimp only
    by_cases h0 : n = 0
    · rw [if_pos h0]
    · rw [if_neg h0, if_pos (by omega)]

/-- Witness for C8 at the division count `0` on a concrete clip. -/
theorem C8_split_nonpositive_aborts_witness :
    (0 : Int) ≤ 0 ∧ Split { Samples := [[1, 2, 3]], Name := "", SampleRate := 0 } 0 = none :=
  ⟨by decide, C8_split_nonpositive_aborts _ 0 (by decide)⟩

/-- C10: on a clip built by `NewClip(0)` every operation that consults
the first channel — `LenPerChannel`, `Slice`, `Split`, `Stretch` —
indexes channel 0 of an empty channel list and aborts out of bounds
(`none`) instead of returning a diagnostic error. -/
theorem C10_zero_channel_aborts :
    LenPerChannel (NewClip 0) = none
    ∧ (∀ startIndex endIndex : Int, Slice (NewClip 0) startIndex endIndex = none)
    ∧ (∀ n : Int, Split (NewClip 0) n = none)
    ∧ Stretch (NewClip 0) = none :=
  ⟨rfl, fun _ _ => rfl, fun _ => rfl, rfl⟩

/-- C6: with equal channel counts `Append` succeeds and each target
channel becomes its former contents followed by the source's
corresponding channel (so lengths add and the old target contents are a
prefix); with differing counts it returns the channel-mismatch error. -/
theorem C6_append_spec (target source : Clip) :
    (target.Samples.length = source.Samples.length →
      ∃ r, Append target source = Except.ok r ∧
        r.Name = target.Name ∧ r.SampleRate = target.SampleRate ∧
        r.Samples.length = target.Samples.length ∧
        ∀ i, i < target.Samples.length →
          r.Samples.getD i [] = target.Samples.getD i [] ++ source.Samples.getD i []) ∧
    (target.Samples.length ≠ source.Samples.length →
      Append target source = Except.error chanMismatchMsg) := by
  constructor
  · intro h
    refine ⟨{ target with
        Samples := List.zipWith (fun a b => a ++ b) target.Samples source.Samples },
      ?_, rfl, rfl, ?_, ?_⟩
    · unfold Append
      rw [if_neg (by omega)]
    · simp only [List.length_zipWith]
      omega
    · intro i hi
      exact getD_zipWith_append _ _ i hi (by omega)
  · intro h
    unfold Append
    rw [if_pos h]

/-- Witness for C6: both branches at concrete clips. -/
theorem C6_append_spec_witness :
    (∃ r, Append { Samples := [[1], [2]], Name := "n", SampleRate := 5 }
              { Samples := [[3, 4], [5]], Name := "", SampleRate := 0 }
          = Except.ok r ∧
        r.Name = "n" ∧ r.SampleRate = 5 ∧ r.Samples.length = 2 ∧
        ∀ i, i < 2 →
          r.Samples.getD i []
            = ([[1], [2]] : List (List Int)).getD i []
              ++ ([[3, 4], [5]] : List (List Int)).getD i [])
    ∧ Append { Samples := [[1]], Name := "", SampleRate := 0 }
          { Samples := [], Name := "", SampleRate := 0 }
        = Except.error chanMismatchMsg :=
  ⟨(C6_append_spec _ _).1 rfl, (C6_append_spec _ _).2 (by decide)⟩

/-- C9: `Mix` with equal channel counts succeeds and leaves the length
of every channel of `s` exactly unchanged, whatever the channel
capacities: the zero-extension inside `mix` acts on a local slice value
and no growth is visible through `s`. -/
theorem C9_mix_preserves_lengths (s t : Clip) (caps : Nat → Nat)
    (hlen : s.Samples.length = t.Samples.length) :
    ∃ r, Mix s t caps = Except.ok r ∧ r.Samples.length = s.Samples.length ∧
      ∀ i, i < s.Samples.length →
        (r.Samples.getD i []).length = (s.Samples.getD i []).length := by
  refine ⟨{ s with
      Samples := (List.range s.Samples.length).map fun i =>
        mix (caps i) (s.Samples.getD i []) (t.Samples.getD i []) },
    ?_, by simp, ?_⟩
  · unfold Mix
    rw [if_neg (by omega)]
  · intro i hi
    have hlt : i < ((List.range s.Samples.length).map fun i =>
        mix (caps i) (s.Samples.getD i []) (t.Samples.getD i [])).length := by
      simp [hi]
    show (((List.range s.Samples.length).map fun i =>
        mix (caps i) (s.Samples.getD i []) (t.Samples.getD i [])).getD i []).length = _
    rw [List.getD_eq_getElem _ _ hlt]
    simp only [List.getElem_map, List.getElem_range]
    exact mix_length _ _ _

/-- Witness for C9 with the second operand's channel strictly longer. -/
theorem C9_mix_preserves_lengths_witness :
    (([[5]] : List (List Int)).length = ([[1, 2, 3]] : List (List Int)).length)
    ∧ ∃ r, Mix { Samples := [[5]], Name := "", SampleRate := 0 }
            { Samples := [[1, 2, 3]], Name := "", SampleRate := 0 } (fun _ => 1)
          = Except.ok r ∧
        r.Samples.length = ([[5]] : List (List Int)).length ∧
        ∀ i, i < ([[5]] : List (List Int)).length →
          (r.Samples.getD i []).length = (([[5]] : List (List Int)).getD i []).length :=
  ⟨rfl, C9_mix_preserves_lengths _ _ _ rfl⟩

/-- C3 counterexample: mixing `s` with channel `[1]` (capacity 1, as
`make([]int16, 1)` yields) with `t`'s channel `[1, 1]` — position `0`
is present in both operands, and the claim prescribes storing
`specMixSample 1 1 = 2` there; but `t` is longer than `s`'s capacity,
so the zero-extension inside `mix` reallocates and `s`'s sample stays
`1`. -/
theorem C3_mix_aligned_counterexample :
    Mix { Samples := [[1]], Name := "", SampleRate := 0 }
        { Samples := [[1, 1]], Name := "", SampleRate := 0 } (fun _ => 1)
      = Except.ok { Samples := [[1]], Name := "", SampleRate := 0 }
    ∧ (1 : Int) ≠ specMixSample 1 1 :=
  ⟨rfl, by decide⟩

/-- C3 (amended): with equal channel counts and 16-bit samples, `Mix`
stores at every aligned position the saturated sum prescribed by the
spec's sign-comparison rule — provided the second operand's channel is
no longer than the first's channel (or at least fits its capacity);
when it exceeds both, the zero-extension inside `mix` reallocates and
the first operand's samples are left unchanged. -/
theorem C3_mix_saturation (s t : Clip) (caps : Nat → Nat)
    (hlen : s.Samples.length = t.Samples.length)
    (hs : ∀ ch ∈ s.Samples, ∀ x ∈ ch, isInt16 x)
    (ht : ∀ ch ∈ t.Samples, ∀ x ∈ ch, isInt16 x) :
    ∃ r, Mix s t caps = Except.ok r ∧
      ∀ i, i < s.Samples.length →
        ∀ k, k < (s.Samples.getD i []).length → k < (t.Samples.getD i []).length →
          (r.Samples.getD i []).getD k 0 =
            if (t.Samples.getD i []).length ≤ (s.Samples.getD i []).length ∨
                (t.Samples.getD i []).length ≤ caps i then
              specMixSample ((s.Samples.getD i []).getD k 0) ((t.Samples.getD i []).getD k 0)
            else (s.Samples.getD i []).getD k 0 := by
  refine ⟨{ s with
      Samples := (List.range s.Samples.length).map fun i =>
        mix (caps i) (s.Samples.getD i []) (t.Samples.getD i []) },
    ?_, ?_⟩
  · unfold Mix
    rw [if_neg (by omega)]
  · intro i hi k hks hkt
    have hlt : i < ((List.range s.Samples.length).map fun i =>
        mix (caps i) (s.Samples.getD i []) (t.Samples.getD i [])).length := by
      simp [hi]
    show ((((List.range s.Samples.length).map fun i =>
        mix (caps i) (s.Samples.getD i []) (t.Samples.getD i [])).getD i []).getD k 0) = _
    rw [List.getD_eq_getElem _ _ hlt]
    simp only [List.getElem_map, List.getElem_range]
    rw [mix_getD _ _ _ _ hks hkt]
    have hmem_s : (s.Samples.getD i []).getD k 0 ∈ s.Samples.getD i [] := by
      rw [List.getD_eq_getElem _ _ hks]
      exact List.getElem_mem _
    have hchan_s : s.Samples.getD i [] ∈ s.Samples := by
      rw [List.getD_eq_getElem _ _ hi]
      exact List.getElem_mem _
    have hmem_t : (t.Samples.getD i []).getD k 0 ∈ t.Samples.getD i [] := by
      rw [List.getD_eq_getElem _ _ hkt]
      exact List.getElem_mem _
    have hchan_t : t.Samples.getD i [] ∈ t.Samples := by
      rw [List.getD_eq_getElem _ _ (by omega : i < t.Samples.length)]
      exact List.getElem_mem _
    have has : isInt16 ((s.Samples.getD i []).getD k 0) := hs _ hchan_s _ hmem_s
    have hat : isInt16 ((t.Samples.getD i []).getD k 0) := ht _ hchan_t _ hmem_t
    by_cases hc : (t.Samples.getD i []).length ≤ (s.Samples.getD i []).length ∨
        (t.Samples.getD i []).length ≤ caps i
    · rw [if_pos hc, if_pos hc]
      exact mixSample_eq_spec _ _ has hat
    · rw [if_neg hc, if_neg hc]

/-- Witness for C3: a channel holding the maximum value `32767` mixed
with a positive sample saturates at `32767`. -/
theorem C3_mix_saturation_witness :
    (([[32767]] : List (List Int)).length = ([[1]] : List (List Int)).length)
    ∧ ∃ r, Mix { Samples := [[32767]], Name := "", SampleRate := 0 }
            { Samples := [[1]], Name := "", SampleRate := 0 } (fun _ => 1)
          = Except.ok r ∧
        ∀ i, i < ([[32767]] : List (List Int)).length →
          ∀ k, k < (([[32767]] : List (List Int)).getD i []).length →
              k < (([[1]] : List (List Int)).getD i []).length →
            (r.Samples.getD i []).getD k 0 =
              if (([[1]] : List (List Int)).getD i []).length
                    ≤ (([[32767]] : List (List Int)).getD i []).length ∨
                  (([[1]] : List (List Int)).getD i []).length ≤ 1 then
                specMixSample ((([[32767]] : List (List Int)).getD i []).getD k 0)
                  ((([[1]] : List (List Int)).getD i []).getD k 0)
              else (([[32767]] : List (List Int)).getD i []).getD k 0 :=
  ⟨rfl, C3_mix_saturation _ _ _ rfl (by decide) (by decide)⟩

/-- C7: on a well-formed clip (at least one channel, uniform channel
lengths, as the spec's data model requires for buffers handed to the
algebra) and a positive division count `n`, `Split` returns `n` clips
whose channel-0 contents concatenate to exactly the first
`n * (len / n)` samples of channel 0, in order; the `len % n` tail
samples appear in no segment. -/
theorem C7_split_truncation (c : Clip) (ch0 : List Int) (rest : List (List Int))
    (hcs : c.Samples = ch0 :: rest)
    (hu : ∀ ch ∈ c.Samples, ch.length = ch0.length) (n : Nat) (hn : 0 < n) :
    ∃ clips, Split c (n : Int) = some clips ∧ clips.length = n ∧
      ((clips.map fun cl => cl.Samples.headD []).flatten)
        = ch0.take (ch0.length / n * n) := by
  have hslice : ∀ i ∈ List.range n,
      Slice c (((ch0.length / n * i : Nat)) : Int)
          (((ch0.length / n * i + ch0.length / n : Nat)) : Int)
        = some { Samples := c.Samples.map fun ch =>
                   (ch.take (ch0.length / n * i + ch0.length / n)).drop (ch0.length / n * i),
                 Name := "", SampleRate := 0 } := by
    intro i hi
    apply Slice_uniform c ch0 (by rw [hcs]; rfl) hu
    · exact Nat.le_add_right _ _
    · have hi' : i < n := List.mem_range.mp hi
      have he : ch0.length / n * i + ch0.length / n = ch0.length / n * (i + 1) := by ring
      rw [he]
      calc ch0.length / n * (i + 1) ≤ ch0.length / n * n :=
            Nat.mul_le_mul_left _ (by omega)
        _ ≤ ch0.length := Nat.div_mul_le_self _ _
  unfold Split
  rw [hcs]
  dsimp only [List.head?_cons]
  rw [if_neg (by exact_mod_cast Nat.pos_iff_ne_zero.mp hn)]
  rw [if_neg (not_lt.mpr (Int.natCast_nonneg n))]
  rw [Int.toNat_ofNat]
  have homap := omap_eq_map
    (g := fun i =>
      ({ Samples := c.Samples.map fun ch =>
             (ch.take (ch0.length / n * i + ch0.length / n)).drop (ch0.length / n * i),
         Name := "", SampleRate := 0 } : Clip))
    (List.range n) hslice
  rw [homap]
  refine ⟨_, rfl, by simp, ?_⟩
  have hmap2 : List.map (fun cl => cl.Samples.headD [])
      ((List.range n).map fun i =>
        ({ Samples := c.Samples.map fun ch =>
             (ch.take (ch0.length / n * i + ch0.length / n)).drop (ch0.length / n * i),
           Name := "", SampleRate := 0 } : Clip))
      = (List.range n).map fun i =>
          (ch0.take (ch0.length / n * i + ch0.length / n)).drop (ch0.length / n * i) := by
    rw [List.map_map]
    apply List.map_congr_left
    intro i _
    simp only [Function.comp]
    rw [hcs]
    rfl
  rw [hmap2, window_concat]

/-- Witness for C7: five samples split in two drops the dangling fifth
sample. -/
theorem C7_split_truncation_witness :
    (0 : Nat) < 2
    ∧ ∃ clips, Split { Samples := [[1, 2, 3, 4, 5]], Name := "", SampleRate := 0 }
          ((2 : Nat) : Int) = some clips ∧ clips.length = 2 ∧
        ((clips.map fun cl => cl.Samples.headD []).flatten)
          = ([1, 2, 3, 4, 5] : List Int).take (([1, 2, 3, 4, 5] : List Int).length / 2 * 2) :=
  ⟨by decide, C7_split_truncation _ [1, 2, 3, 4, 5] [] rfl (by decide) 2 (by decide)⟩

set_option maxRecDepth 8000 in
/-- C4 counterexample: a well-formed one-channel clip (length 1, sample
rate `2^31 > 0`) does not round-trip: `NewWaveFromClip` stores the rate
through Go's `int32(...)` conversion, which wraps `2^31` to `-2^31`, so
the decoded clip's rate differs from the original. -/
theorem C4_roundtrip_counterexample :
    (NewWaveFromClip { Samples := [[7]], Name := "x.wav", SampleRate := 2147483648 }).bind
        NewClipFromWave
      = some { Samples := [[7]], Name := "", SampleRate := -2147483648 }
    ∧ (-2147483648 : Int) ≠ 2147483648 :=
  ⟨rfl, by decide⟩

/-- C4 (amended): for a well-formed clip whose channel count also fits
the container's 16-bit header field (≤ 32767) and whose sample rate
fits the 32-bit header field (< 2^31), decoding the encoded container
reproduces the sample values of every channel, the channel count and
the sample rate. -/
theorem C4_roundtrip (c : Clip) (L : Nat)
    (hn1 : 1 ≤ c.Samples.length) (hn2 : c.Samples.length ≤ 32767)
    (hu : ∀ ch ∈ c.Samples, ch.length = L) (_hL : 1 ≤ L)
    (hr1 : 0 < c.SampleRate) (hr2 : c.SampleRate < 2147483648) :
    (NewWaveFromClip c).bind NewClipFromWave
      = some { Samples := c.Samples, Name := "", SampleRate := c.SampleRate } := by
  obtain ⟨ch0, rest, hcs⟩ : ∃ ch0 rest, c.Samples = ch0 :: rest := by
    rcases hc : c.Samples with _ | ⟨a, b⟩
    · rw [hc] at hn1; simp at hn1
    · exact ⟨a, b, rfl⟩
  have hch0 : ch0.length = L := hu ch0 (by rw [hcs]; exact List.mem_cons_self _ _)
  have henc : NewWaveFromClip c = some
      { FileName := if (c.Name.splitOn ".wav").length > 1 then c.Name else c.Name ++ ".wav",
        NumChannels := wrap16 (c.Samples.length : Int),
        SampleRate := wrap32 c.SampleRate,
        Samples := flatRows c.Samples L } := by
    unfold NewWaveFromClip
    rw [hcs]
    dsimp only [List.head?_cons]
    rw [hch0, interleave_eq_flatRows (ch0 :: rest) L (by rw [← hcs]; exact hu)]
  rw [henc, Option.some_bind]
  unfold NewClipFromWave
  dsimp only
  have h16 : wrap16 (c.Samples.length : Int) = (c.Samples.length : Int) := by
    apply wrap16_eq_self
    · have := Int.natCast_nonneg c.Samples.length
      omega
    · exact_mod_cast hn2
  rw [h16]
  rw [if_neg (not_lt.mpr (Int.natCast_nonneg _))]
  rw [Int.toNat_ofNat]
  rw [if_neg (by intro h; exact absurd h.1 (by omega))]
  have hd := deinter_flatRows c.Samples.length L c.Samples
    (List.replicate c.Samples.length []) 0 rfl (by simp) hu
  rw [Nat.zero_mul] at hd
  rw [hd, zipWith_append_replicate]
  rw [wrap32_eq_self (by omega) (by omega)]

/-- Witness for C4 at a two-channel clip. -/
theorem C4_roundtrip_witness :
    (1 ≤ ([[1, 2], [10, 20]] : List (List Int)).length)
    ∧ (([[1, 2], [10, 20]] : List (List Int)).length ≤ 32767)
    ∧ (∀ ch ∈ ([[1, 2], [10, 20]] : List (List Int)), ch.length = 2)
    ∧ (1 ≤ 2) ∧ ((0 : Int) < 8) ∧ ((8 : Int) < 2147483648)
    ∧ (NewWaveFromClip { Samples := [[1, 2], [10, 20]], Name := "a", SampleRate := 8 }).bind
          NewClipFromWave
        = some { Samples := [[1, 2], [10, 20]], Name := "", SampleRate := 8 } :=
  ⟨by decide, by decide, by decide, by decide, by decide, by decide,
    C4_roundtrip _ 2 (by decide) (by decide) (by decide) (by decide) (by decide) (by decide)⟩

end GoAudio
